import Mathlib

/-!
Verification of the incremental translation synchronization engine of the
translatetool repository (src/main.rs and src/translate.rs), as a shallow
embedding: Rust strings are lists of characters, the fluent-syntax AST is an
inductive data model following the shape described in the design document,
fallible external calls are Option/Except valued parameters, and the writer
is modelled as the text chunk it emits per resource entry.
-/

namespace TT

/-- Rust strings are modelled as lists of characters. -/
abbrev Str := List Char

/-- The sentinel token written in place of every placeable when a pattern is
stripped for translation, and searched for by the reinsertion loop
(main.rs, the literal three-underscore string). -/
def sentinel : Str := ['_', '_', '_']

/-- The hand-translated comment tag searched for by substring match
(main.rs lines 300 and 449). -/
def hand_tag : Str := ("tt-hand-translated").toList

/-- The language-name comment tag (main.rs line 321). -/
def lang_tag : Str := ("tt-lang-name").toList

/-! ## Data model: the fluent-syntax AST as consumed by main.rs.

The parser is an external collaborator; the design document section 3 gives
the entry/pattern/expression shape.  Following the fluent-syntax AST: a
string literal stores its unquoted content; a message reference carries an
optional attribute accessor; a term reference carries an optional attribute
and optional call arguments (the argument list is carried here as its raw
source text).  Function references, select expressions and nested
placeables are opaque to the tool (it renders them as the sentinel); their
payload is carried as the raw source text standing for their original
content. -/

inductive InlineExpression where
  | stringLiteral (value : Str)
  | numberLiteral (value : Str)
  | functionReference (raw : Str)
  | messageReference (id : Str) (attr : Option Str)
  | termReference (id : Str) (attr : Option Str) (args : Option Str)
  | variableReference (id : Str)
  | placeable (raw : Str)
deriving DecidableEq

inductive Expression where
  | inline (ie : InlineExpression)
  | select (raw : Str)
deriving DecidableEq

inductive PatternElement where
  | textElement (s : Str)
  | placeable (e : Expression)
deriving DecidableEq

/-- A pattern is the ordered run of its elements. -/
abbrev Pattern := List PatternElement

inductive Comment where
  | comment (content : List Str)
  | groupComment (content : List Str)
  | resourceComment (content : List Str)
deriving DecidableEq

structure Message where
  id : Str
  value : Option Pattern
  comment : Option Comment
deriving DecidableEq

structure Term where
  id : Str
  value : Pattern
  comment : Option Comment
deriving DecidableEq

inductive Entry where
  | message (m : Message)
  | term (t : Term)
  | comment (c : Comment)
deriving DecidableEq

structure Resource where
  body : List Entry
deriving DecidableEq

/-- Concatenation of the pieces a loop writes one after the other. -/
def catMap (f : α → Str) : List α → Str
  | [] => []
  | x :: xs => f x ++ catMap f xs

/-! ## String helpers mirroring the Rust standard library calls used. -/

/-- Substring test: Rust str::contains(pat). -/
def hasSub (pat : Str) : Str → Bool
  | [] => pat.isPrefixOf []
  | c :: cs => pat.isPrefixOf (c :: cs) || hasSub pat cs

/-- Split at the first occurrence of pat: returns the text before the
occurrence and the text after it, or none when pat does not occur.  This is
the search step of Rust str::replacen(pat, rep, 1). -/
def splitFirst (pat : Str) : Str → Option (Str × Str)
  | [] => none
  | c :: cs =>
    if pat.isPrefixOf (c :: cs) then some ([], (c :: cs).drop pat.length)
    else
      match splitFirst pat cs with
      | some (pre, suf) => some (c :: pre, suf)
      | none => none

/-- Rust String::replacen(pat, rep, 1): replace the first occurrence of pat,
or return the string unchanged when pat does not occur. -/
def replaceFirst (s pat rep : Str) : Str :=
  match splitFirst pat s with
  | none => s
  | some (pre, suf) => pre ++ rep ++ suf

/-! ## ResourceModel: find_message (main.rs lines 71-85). -/

/-- First message entry of the resource with the given id. -/
def find_message (resource : Resource) (id : Str) : Option Message :=
  resource.body.findSome? fun entry =>
    match entry with
    | .message message => if message.id = id then some message else none
    | _ => none

/-! ## Writer primitives (main.rs lines 87-163). -/

/-- Text written by write_comment (main.rs lines 87-111): each line of a
standalone, group or resource comment with its marker and a newline. -/
def write_comment : Option Comment → Str
  | none => []
  | some (.comment content) => catMap (fun c => ("# ").toList ++ c ++ ['\n']) content
  | some (.groupComment content) => catMap (fun c => ("## ").toList ++ c ++ ['\n']) content
  | some (.resourceComment content) => catMap (fun c => ("### ").toList ++ c ++ ['\n']) content

/-- The brace-wrapped rendering used by write_expression for the
recoverable expression kinds: an opening brace, a space, the inner text, a
space and a closing brace. -/
def wrapBraces (inner : Str) : Str := '{' :: ' ' :: (inner ++ [' ', '}'])

/-- Text written by write_expression (main.rs lines 113-146): literals and
references are rendered in braces; function references, nested placeables
and select expressions are written as the sentinel.  The string literal is
written as its unquoted stored content, and the reference arms match with
double-dot patterns, so the attribute and argument fields are dropped. -/
def write_expression : Expression → Str
  | .inline (.stringLiteral value) => wrapBraces value
  | .inline (.numberLiteral value) => wrapBraces value
  | .inline (.functionReference _) => sentinel
  | .inline (.messageReference id _) => wrapBraces id
  | .inline (.termReference id _ _) => wrapBraces ('-' :: id)
  | .inline (.variableReference id) => wrapBraces ('$' :: id)
  | .inline (.placeable _) => sentinel
  | .select _ => sentinel

/-- Text written by write_pattern (main.rs lines 148-163): text elements
verbatim, placeables through write_expression. -/
def write_pattern (p : Pattern) : Str :=
  catMap
    (fun element =>
      match element with
      | .textElement s => s
      | .placeable e => write_expression e)
    p

/-! ## PlaceholderCodec (main.rs lines 342-351, 411-433). -/

/-- The stripped text sent for translation (main.rs lines 342-349): text
elements verbatim, every placeable replaced by the sentinel. -/
def strip_pattern (p : Pattern) : Str :=
  catMap
    (fun element =>
      match element with
      | .textElement s => s
      | .placeable _ => sentinel)
    p

/-- The placeholder renderings of a pattern in order (main.rs lines
411-428): write_expression applied to each placeable. -/
def placeables_of (p : Pattern) : List Str :=
  p.filterMap fun element =>
    match element with
    | .placeable e => some (write_expression e)
    | _ => none

/-- Reinsertion (main.rs lines 430-433): for each placeholder in order,
replace the first occurrence of the sentinel in the running string. -/
def reinsert (msg : Str) (placeholders : List Str) : Str :=
  placeholders.foldl (fun m p => replaceFirst m sentinel p) msg

/-! ## ChangeDetector (main.rs lines 272-315). -/

/-- Comment lines tag check: any line contains the tag as a substring. -/
def contains_tag (content : List Str) (tag : Str) : Bool :=
  content.any fun c => hasSub tag c

/-- Diff verdict (main.rs lines 276-288): translation is needed when the id
is absent from the prior source snapshot or the value patterns differ. -/
def needs_translation_diff (msg : Message) (source_outdated : Resource) : Bool :=
  match find_message source_outdated msg.id with
  | some outdated => decide (msg.value ≠ outdated.value)
  | none => true

/-- Final verdict (main.rs lines 276-310): the diff verdict, overridden by
the existing target entry: absent id forces true; a standalone comment sets
the verdict to the negation of its hand-translated tag; any other comment
state keeps the diff verdict. -/
def needs_translation (msg : Message) (source_outdated target_existing : Resource) : Bool :=
  let from_diff := needs_translation_diff msg source_outdated
  match find_message target_existing msg.id with
  | some existing =>
    match existing.comment with
    | some (.comment content) => ! contains_tag content hand_tag
    | some _ => from_diff
    | none => from_diff
  | none => true

/-- Language-name message detection (main.rs lines 319-327). -/
def is_lang_name (msg : Message) : Bool :=
  match msg.comment with
  | some (.comment content) => contains_tag content lang_tag
  | _ => false

/-! ## TranslationOrchestrator (main.rs lines 317-389).

The external translator is a parameter: translate_outcome gives the result
of Translator::translate per input (none for a failed call) and
lang_name_outcome the result of Translator::get_lang_name. -/

structure Svc where
  translate_outcome : Str → Option Str
  lang_name_outcome : Option Str

/-- Value inserted for a language-name message (main.rs lines 330-339): the
fetched name, or the placeholder string when the call failed. -/
def lang_name_value (svc : Svc) : Str :=
  match svc.lang_name_outcome with
  | some t => t
  | none => ("<INSERT LANGUAGE NAME HERE>").toList

/-- The pending_translations map content (main.rs lines 317-355), as the
insertion sequence in source order; the HashMap keeps the last insertion
per id, which translations_lookup reproduces. -/
def pending_translations (svc : Svc) (source source_outdated target_existing : Resource) :
    List (Str × Option Str) :=
  source.body.filterMap fun entry =>
    match entry with
    | .message msg =>
      if needs_translation msg source_outdated target_existing then
        some (msg.id,
          if is_lang_name msg then some (lang_name_value svc)
          else
            match msg.value with
            | some pattern => some (strip_pattern pattern)
            | none => none)
      else none
    | _ => none

/-- The translations map (main.rs lines 369-388): each pending value is
translated, a failed call falling back to the untranslated value. -/
def run_translations (svc : Svc) (pending : List (Str × Option Str)) :
    List (Str × Option Str) :=
  pending.map fun p =>
    match p with
    | (id, some value) =>
      (id, some
        (match svc.translate_outcome value with
         | some t => t
         | none => value))
    | (id, none) => (id, none)

/-- HashMap-style lookup over the insertion sequence: the last inserted
value for the id, if any. -/
def translations_lookup (trs : List (Str × Option Str)) (id : Str) : Option (Option Str) :=
  List.lookup id trs.reverse

/-! ## ResourceWriter (main.rs lines 392-479), as the chunk of text emitted
per source entry. -/

/-- Value text of an optional pattern (main.rs lines 464-466): nothing when
absent. -/
def write_value_opt : Option Pattern → Str
  | some v => write_pattern v
  | none => []

/-- Chunk written for a message entry (main.rs lines 406-472).  With a
computed translation Some, the id line with placeholders reinserted; with a
computed None, nothing; with no computed translation, the existing target
message if found else the source message, with its comment.  Two newlines
terminate the entry in every branch. -/
def write_message_chunk (trs : List (Str × Option Str)) (target_existing : Resource)
    (m : Message) : Str :=
  (match translations_lookup trs m.id with
   | some (some msgText) =>
     let placeholders :=
       match m.value with
       | some v => placeables_of v
       | none => []
     (m.id ++ (" = ").toList) ++ reinsert msgText placeholders
   | some none => []
   | none =>
     let message :=
       match find_message target_existing m.id with
       | some existing => existing
       | none => m
     write_comment message.comment ++ (m.id ++ (" = ").toList) ++ write_value_opt message.value)
  ++ ['\n', '\n']

/-- Chunk written for a term entry (main.rs lines 398-405): comment, dashed
id line, pattern, blank-line terminator. -/
def write_term_chunk (t : Term) : Str :=
  write_comment t.comment ++ ('-' :: t.id) ++ (" = ").toList ++ write_pattern t.value
    ++ ['\n', '\n']

/-- Chunk written per source entry (main.rs lines 395-479). -/
def write_entry_chunk (trs : List (Str × Option Str)) (target_existing : Resource) :
    Entry → Str
  | .term t => write_term_chunk t
  | .message m => write_message_chunk trs target_existing m
  | .comment c => write_comment (some c) ++ ['\n']

/-- The whole output file text for one run. -/
def output_text (svc : Svc) (source source_outdated target_existing : Resource) : Str :=
  catMap
    (write_entry_chunk (run_translations svc (pending_translations svc source source_outdated target_existing))
      target_existing)
    source.body

/-! ## Translator::get_lang_name (translate.rs lines 169-177). -/

structure LRLanguage where
  language_code : Str
  display_name : Str
  support_source : Bool
  support_target : Bool
deriving DecidableEq

/-- Translator::get_lang_name, over the outcome of the language-list query:
a query failure propagates as an error; otherwise the display name of the
first language whose code matches, or the placeholder string as a
successful result. -/
def get_lang_name (languages_response : Except Unit (List LRLanguage)) (language : Str) :
    Except Unit Str :=
  match languages_response with
  | .error e => .error e
  | .ok langs =>
    match langs.find? (fun lang => lang.language_code == language) with
    | some lang => .ok lang.display_name
    | none => .ok (("<INSERT LANGUAGE NAME HERE>").toList)

/-! ## Spec-side definitions

Each follows the wording of the design document for the claim that compares
it with the code-side definition above. -/

/-- Follows the claim C1 wording for the final verdict: if the id is absent
from the existing target resource the verdict is NeedsTranslation; else a
standalone comment containing the hand-translated tag gives Skip and one
without it gives NeedsTranslation; else the verdict equals the diff
verdict. -/
def spec_verdict (msg : Message) (source_outdated target_existing : Resource) : Bool :=
  match find_message target_existing msg.id with
  | none => true
  | some existing =>
    match existing.comment with
    | some (.comment content) =>
      if contains_tag content hand_tag then false else true
    | _ => needs_translation_diff msg source_outdated

/-- Follows the spec wording for reinsert (section 4.2 of the design
document): replace the sentinel token left to right, one occurrence per
placeholder, in order; with fewer sentinel occurrences than placeholders
the excess placeholders are not reinserted; with more, surplus sentinels
are left verbatim.  Compared against the reinsert loop of main.rs for
claim C6. -/
def reinsertSpec (s : Str) : List Str → Str
  | [] => s
  | r :: rs =>
    match splitFirst sentinel s with
    | none => s
    | some (pre, suf) => pre ++ r ++ reinsertSpec suf rs

/-- The strings of rs occur in s, in order, as disjoint substrings from
left to right; the full search over all starting positions. -/
def containsInOrder (s : Str) : List Str → Bool
  | [] => true
  | r :: rs =>
    (List.range (s.length + 1)).any fun i =>
      r.isPrefixOf (s.drop i) && containsInOrder (s.drop (i + r.length)) rs

/-- A placeholder string is tame when appending two underscores creates no
sentinel occurrence: it neither contains the sentinel nor ends in an
underscore.  Every brace-wrapped rendering is tame. -/
def tame (r : Str) : Bool := ! hasSub sentinel (r ++ ['_', '_'])

/-- No occurrence of the sentinel begins before index n. -/
def noCross (n : Nat) (l : Str) : Prop :=
  ∀ i, i < n → sentinel.isPrefixOf (l.drop i) = false

/-- The dotted attribute accessor of a reference, when present. -/
def attr_suffix : Option Str → Str
  | none => []
  | some a => '.' :: a

/-- The parenthesised call arguments of a term reference, when present. -/
def args_suffix : Option Str → Str
  | none => []
  | some raw => '(' :: (raw ++ [')'])

/-- Follows the spec wording for the verbatim surface form of an expression
(design document section 3): the brace form carrying everything the AST
stores - the quotes of a string literal, the attribute accessor of a
message or term reference, the call arguments of a term reference, and the
original content of a function reference, nested placeable or select
expression.  Compared against write_expression for claims C3 and C8. -/
def expression_surface : Expression → Str
  | .inline (.stringLiteral value) => wrapBraces ('"' :: (value ++ ['"']))
  | .inline (.numberLiteral value) => wrapBraces value
  | .inline (.functionReference raw) => wrapBraces raw
  | .inline (.messageReference id attr) => wrapBraces (id ++ attr_suffix attr)
  | .inline (.termReference id attr args) =>
    wrapBraces ('-' :: (id ++ attr_suffix attr ++ args_suffix args))
  | .inline (.variableReference id) => wrapBraces ('$' :: id)
  | .inline (.placeable raw) => wrapBraces raw
  | .select raw => wrapBraces raw

/-- The verbatim surface form of a pattern: text elements verbatim,
placeables through expression_surface. -/
def pattern_surface (p : Pattern) : Str :=
  catMap
    (fun element =>
      match element with
      | .textElement s => s
      | .placeable e => expression_surface e)
    p

/-- Expressions whose written form loses content of the original surface:
function references, nested placeables and select expressions collapse to
the bare sentinel; a string literal loses its quotes; a message or term
reference loses its attribute accessor and call arguments when present.
Only number literals, variable references, attribute-free message
references and attribute-and-argument-free term references are written
unchanged. -/
def lossyExpr : Expression → Bool
  | .inline (.stringLiteral _) => true
  | .inline (.numberLiteral _) => false
  | .inline (.functionReference _) => true
  | .inline (.messageReference _ attr) => attr.isSome
  | .inline (.termReference _ attr args) => attr.isSome || args.isSome
  | .inline (.variableReference _) => false
  | .inline (.placeable _) => true
  | .select _ => true

/-- A pattern whose placeables are all written without loss. -/
def noLossPattern (p : Pattern) : Bool :=
  p.all fun element =>
    match element with
    | .placeable e => ! lossyExpr e
    | .textElement _ => true

/-- The id of the id line the writer emits for an entry (the projection of
the branch structure of main.rs lines 395-479): terms and messages emit
their id line except a message whose stored translation is None, which
emits nothing; comment entries have no id. -/
def entry_written_id (trs : List (Str × Option Str)) : Entry → Option Str
  | .term t => some t.id
  | .message m =>
    match translations_lookup trs m.id with
    | some (some _) => some m.id
    | some none => none
    | none => some m.id
  | .comment _ => none

/-- The id of an entry of the current source resource. -/
def source_entry_id : Entry → Option Str
  | .term t => some t.id
  | .message m => some m.id
  | .comment _ => none

/-- Sequence of ids emitted to the output, in order. -/
def output_ids (source : Resource) (trs : List (Str × Option Str)) : List Str :=
  source.body.filterMap (entry_written_id trs)

/-- Sequence of entry ids of the current source resource, in order. -/
def source_ids (source : Resource) : List Str :=
  source.body.filterMap source_entry_id

/-! ## Easy claim groundwork -/

section ConcreteInputs

/-- Concrete service whose translate call always fails and whose
language-name call fails too. -/
def svcFail : Svc := ⟨fun _ => none, none⟩

def emptyResource : Resource := ⟨[]⟩

/-- A message with no value pattern (attribute-only). -/
def msgNoValue : Message := ⟨("only-attrs").toList, none, none⟩

def sourceNoValue : Resource := ⟨[Entry.message msgNoValue]⟩

/-- The translations map obtained for sourceNoValue on a first run. -/
def trsNoValue : List (Str × Option Str) :=
  run_translations svcFail (pending_translations svcFail sourceNoValue emptyResource emptyResource)

/-- A message present identically in the prior snapshot. -/
def msgSame : Message := ⟨("greeting").toList, some [PatternElement.textElement (("Hello").toList)], none⟩

def priorSame : Resource := ⟨[Entry.message msgSame]⟩

/-- Target containing the same id with no comment. -/
def targetNoComment : Resource :=
  ⟨[Entry.message ⟨("greeting").toList, some [PatternElement.textElement (("Bonjour").toList)], none⟩]⟩

/-- A pattern whose first placeable is opaque (a select expression, rendered
as the sentinel) and whose second is a variable reference. -/
def pC2 : Pattern :=
  [PatternElement.placeable (Expression.select (("$n ->").toList)),
   PatternElement.placeable (Expression.inline (InlineExpression.variableReference (("x").toList)))]

/-- An ordinary pattern with one variable placeable. -/
def pC2w : Pattern :=
  [PatternElement.textElement (("Hello, ").toList),
   PatternElement.placeable (Expression.inline (InlineExpression.variableReference (("name").toList))),
   PatternElement.textElement (("!").toList)]

/-- A value pattern holding a single select expression. -/
def valSelect : Pattern := [PatternElement.placeable (Expression.select (("$count ->").toList))]

/-- A standalone comment carrying the hand-translated tag. -/
def handComment : Comment := Comment.comment [hand_tag]

/-- Existing hand-translated target entry whose value is a select
expression. -/
def existingC3 : Message := ⟨("g").toList, some valSelect, some handComment⟩

def targetC3 : Resource := ⟨[Entry.message existingC3]⟩

/-- Source message with the same id and fresh text. -/
def msgC3 : Message := ⟨("g").toList, some [PatternElement.textElement (("Hello").toList)], none⟩

def sourceC3 : Resource := ⟨[Entry.message msgC3]⟩

/-- Translations map for the C3 run. -/
def trsC3 : List (Str × Option Str) :=
  run_translations svcFail (pending_translations svcFail sourceC3 emptyResource targetC3)

/-- A value pattern holding a quoted string literal (stored unquoted). -/
def valQuote : Pattern :=
  [PatternElement.placeable (Expression.inline (InlineExpression.stringLiteral (("x").toList)))]

/-- A value pattern holding a message reference with an attribute accessor. -/
def valAttr : Pattern :=
  [PatternElement.placeable
    (Expression.inline (InlineExpression.messageReference (("m").toList) (some (("a").toList))))]

/-- A term whose value is a select expression. -/
def termC8 : Term := ⟨("brand").toList, valSelect, some (Comment.comment [("note").toList])⟩

/-- A term whose value has only recoverable placeables. -/
def termC8w : Term :=
  ⟨("brand").toList,
   [PatternElement.textElement (("ACME ").toList),
    PatternElement.placeable (Expression.inline (InlineExpression.variableReference (("v").toList)))],
   none⟩

/-- Existing hand-translated target entry with a plain text value. -/
def existW3 : Message :=
  ⟨("g2").toList, some [PatternElement.textElement (("Bonjour").toList)], some handComment⟩

def targetW3 : Resource := ⟨[Entry.message existW3]⟩

/-- Source message with the same id as existW3 and fresh text. -/
def msgW3 : Message := ⟨("g2").toList, some [PatternElement.textElement (("Hello").toList)], none⟩

def sourceW3 : Resource := ⟨[Entry.message msgW3]⟩

/-- A source message carrying a value pattern. -/
def msgWithValue : Message := ⟨("hello").toList, some [PatternElement.textElement (("Hi").toList)], none⟩

def sourceWithValue : Resource := ⟨[Entry.message msgWithValue]⟩

/-- Translations map for the first run over sourceWithValue. -/
def trsWithValue : List (Str × Option Str) :=
  run_translations svcFail (pending_translations svcFail sourceWithValue emptyResource emptyResource)

end ConcreteInputs

/-! ## Claim C1 -/

/-- Claim C1: for every message id the change-detector verdict follows the
spec precedence: target absence forces NeedsTranslation; else a standalone
comment with the hand-translated tag forces Skip, without it forces
NeedsTranslation; else the verdict equals the diff verdict, which is
NeedsTranslation iff the id is absent from the prior-source resource or its
pattern differs from the prior snapshot. -/
theorem thm_C1_change_detector_precedence (msg : Message) (source_outdated target_existing : Resource) :
    needs_translation msg source_outdated target_existing
      = spec_verdict msg source_outdated target_existing := by
  unfold needs_translation spec_verdict
  cases hfm : find_message target_existing msg.id with
  | none => rfl
  | some existing =>
    obtain ⟨id, value, comment⟩ := existing
    cases comment with
    | none => rfl
    | some c =>
      cases c with
      | comment content =>
        cases htag : contains_tag content hand_tag <;> simp [htag]
      | groupComment content => rfl
      | resourceComment content => rfl

/-! ## Claim C5 -/

/-- Claim C5 counterexample: a message present in the existing target with
no comment, whose pattern equals the prior snapshot (diff verdict false),
gets verdict Skip, not NeedsTranslation as the claim states. -/
theorem thm_C5_no_comment_counterexample :
    find_message targetNoComment msgSame.id
        = some ⟨("greeting").toList, some [PatternElement.textElement (("Bonjour").toList)], none⟩
      ∧ needs_translation_diff msgSame priorSame = false
      ∧ needs_translation msgSame priorSame targetNoComment = false := by
  decide

/-- Claim C5 amended: a message present in the existing target resource with
no comment, whose diff verdict shows no change, gets verdict Skip (the
diff verdict is kept, not overridden to NeedsTranslation). -/
theorem thm_C5_no_comment_amended (msg : Message) (source_outdated target_existing : Resource)
    (existing : Message)
    (hfind : find_message target_existing msg.id = some existing)
    (hcomment : existing.comment = none)
    (hdiff : needs_translation_diff msg source_outdated = false) :
    needs_translation msg source_outdated target_existing = false := by
  simp [needs_translation, hfind, hcomment, hdiff]

/-- Witness for the amended claim C5 at a concrete input. -/
theorem thm_C5_no_comment_witness :
    needs_translation msgSame priorSame targetNoComment = false :=
  thm_C5_no_comment_amended msgSame priorSame targetNoComment
    ⟨("greeting").toList, some [PatternElement.textElement (("Bonjour").toList)], none⟩
    (by decide) (by decide) (by decide)

/-! ## Claim C4 -/

/-- Claim C4 counterexample: for a message whose computed translation result
is None (no value pattern), the writer emits only the blank entry
terminator, not an id line with an empty value as the claim states. -/
theorem thm_C4_none_result_counterexample :
    translations_lookup trsNoValue msgNoValue.id = some none
      ∧ write_message_chunk trsNoValue emptyResource msgNoValue = ("\n\n").toList
      ∧ write_message_chunk trsNoValue emptyResource msgNoValue
          ≠ msgNoValue.id ++ (" = ").toList ++ ("\n\n").toList := by
  decide

/-- Claim C4 amended: for every message whose computed translation result
exists and is None, the writer emits nothing for that id, neither comment
nor id line; only the blank entry terminator is written. -/
theorem thm_C4_none_result_amended (trs : List (Str × Option Str)) (target_existing : Resource)
    (m : Message) (hlookup : translations_lookup trs m.id = some none) :
    write_message_chunk trs target_existing m = ("\n\n").toList := by
  unfold write_message_chunk
  rw [hlookup]
  rfl

/-- Witness for the amended claim C4 at a concrete input. -/
theorem thm_C4_none_result_witness :
    write_message_chunk trsNoValue emptyResource msgNoValue = ("\n\n").toList :=
  thm_C4_none_result_amended trsNoValue emptyResource msgNoValue (by decide)

/-! ## Claim C7 -/

/-- Claim C7: a failed translate call never aborts the batch: the
translations map keeps one result per pending unit, a unit whose call
failed keeps its untranslated stripped source text, and the writer later
reinserts placeholders into whatever Some result the map holds. -/
theorem thm_C7_translate_failure (svc : Svc) (pending : List (Str × Option Str)) (i : Nat)
    (id value : Str) (trs : List (Str × Option Str)) (target_existing : Resource)
    (m : Message) (msgText : Str) :
    (run_translations svc pending).length = pending.length
      ∧ (pending[i]? = some (id, some value) → svc.translate_outcome value = none →
          (run_translations svc pending)[i]? = some (id, some value))
      ∧ (translations_lookup trs m.id = some (some msgText) →
          write_message_chunk trs target_existing m
            = ((m.id ++ (" = ").toList)
                ++ reinsert msgText
                    (match m.value with
                     | some v => placeables_of v
                     | none => []))
                ++ ['\n', '\n']) := by
  refine ⟨List.length_map pending _, ?_, ?_⟩
  · intro hget hfail
    unfold run_translations
    rw [List.getElem?_map, hget]
    simp [hfail]
  · intro hlookup
    unfold write_message_chunk
    rw [hlookup]

/-- Witness for claim C7 at a concrete failing service. -/
theorem thm_C7_translate_failure_witness :
    (run_translations svcFail [((("a").toList : Str), some (("Hi").toList))]).length
        = [((("a").toList : Str), some (("Hi").toList))].length
      ∧ (run_translations svcFail [((("a").toList : Str), some (("Hi").toList))])[0]?
          = some ((("a").toList : Str), some (("Hi").toList))
      ∧ write_message_chunk [((("a").toList : Str), some (("Hi").toList))] emptyResource
            ⟨("a").toList, none, none⟩
          = ((((("a").toList : Str)) ++ (" = ").toList) ++ reinsert (("Hi").toList) []) ++ ['\n', '\n'] := by
  refine ⟨(thm_C7_translate_failure svcFail _ 0 (("a").toList) (("Hi").toList)
      [((("a").toList : Str), some (("Hi").toList))] emptyResource ⟨("a").toList, none, none⟩
      (("Hi").toList)).1, ?_, ?_⟩
  · exact (thm_C7_translate_failure svcFail _ 0 (("a").toList) (("Hi").toList)
      [((("a").toList : Str), some (("Hi").toList))] emptyResource ⟨("a").toList, none, none⟩
      (("Hi").toList)).2.1 (by decide) (by decide)
  · exact (thm_C7_translate_failure svcFail [((("a").toList : Str), some (("Hi").toList))] 0
      (("a").toList) (("Hi").toList)
      [((("a").toList : Str), some (("Hi").toList))] emptyResource ⟨("a").toList, none, none⟩
      (("Hi").toList)).2.2 (by decide)

/-! ## Claim C10 -/

/-- Claim C10: when the language-list query succeeds but no listed language
carries the configured code, get_lang_name returns the placeholder string
as a successful result, not an error. -/
theorem thm_C10_lang_name (langs : List LRLanguage) (language : Str)
    (habsent : ∀ lang ∈ langs, lang.language_code ≠ language) :
    get_lang_name (.ok langs) language = .ok (("<INSERT LANGUAGE NAME HERE>").toList) := by
  have hfind : langs.find? (fun lang => lang.language_code == language) = none := by
    rw [List.find?_eq_none]
    intro x hx
    simpa using habsent x hx
  show (match langs.find? (fun lang => lang.language_code == language) with
        | some lang => Except.ok lang.display_name
        | none => Except.ok (("<INSERT LANGUAGE NAME HERE>").toList))
      = Except.ok (("<INSERT LANGUAGE NAME HERE>").toList)
  rw [hfind]

/-- Witness for claim C10 at a concrete language list. -/
theorem thm_C10_lang_name_witness :
    get_lang_name (.ok [⟨("fr").toList, ("French").toList, true, true⟩]) (("de").toList)
      = .ok (("<INSERT LANGUAGE NAME HERE>").toList) :=
  thm_C10_lang_name [⟨("fr").toList, ("French").toList, true, true⟩] (("de").toList) (by decide)

/-! ## Sentinel and substring lemmas -/

theorem sent_isPrefixOf_iff (l : Str) :
    sentinel.isPrefixOf l = true ↔ ∃ t, l = '_' :: '_' :: '_' :: t := by
  constructor
  · intro h
    match l with
    | [] => simp [sentinel, List.isPrefixOf] at h
    | [a] => simp [sentinel, List.isPrefixOf] at h
    | [a, b] => simp [sentinel, List.isPrefixOf] at h
    | a :: b :: c :: t =>
      simp [sentinel, List.isPrefixOf] at h
      obtain ⟨ha, hb, hc⟩ := h
      subst ha
      subst hb
      subst hc
      exact ⟨t, rfl⟩
  · rintro ⟨t, rfl⟩
    simp [sentinel, List.isPrefixOf]

theorem isPrefixOf_append_self (p t : Str) : p.isPrefixOf (p ++ t) = true := by
  induction p with
  | nil => simp [List.isPrefixOf]
  | cons a p ih => simp [List.isPrefixOf, ih]

theorem isPrefixOf_eq_take (p l : Str) (h : p.isPrefixOf l = true) :
    l = p ++ l.drop p.length := by
  induction p generalizing l with
  | nil => simp
  | cons a p ih =>
    match l with
    | [] => simp [List.isPrefixOf] at h
    | b :: l =>
      simp only [List.isPrefixOf, Bool.and_eq_true, beq_iff_eq] at h
      obtain ⟨hab, h⟩ := h
      have hl := ih l h
      calc b :: l = a :: l := by rw [hab]
        _ = a :: (p ++ l.drop p.length) := by rw [← hl]
        _ = (a :: p) ++ (b :: l).drop (a :: p).length := by simp

theorem splitFirst_eq_append (pat s pre suf : Str) (h : splitFirst pat s = some (pre, suf)) :
    s = pre ++ pat ++ suf := by
  induction s generalizing pre suf with
  | nil => simp [splitFirst] at h
  | cons c cs ih =>
    rw [splitFirst] at h
    split at h
    case isTrue hp =>
      simp only [Option.some.injEq, Prod.mk.injEq] at h
      obtain ⟨h1, h2⟩ := h
      subst h1
      subst h2
      simpa using isPrefixOf_eq_take pat (c :: cs) hp
    case isFalse hp =>
      cases hs : splitFirst pat cs with
      | none => rw [hs] at h; simp at h
      | some pq =>
        obtain ⟨pre', suf'⟩ := pq
        rw [hs] at h
        simp only [Option.some.injEq, Prod.mk.injEq] at h
        obtain ⟨h1, h2⟩ := h
        subst h1
        subst h2
        rw [ih pre' suf' hs]
        simp

theorem splitFirst_sent_none_iff (s : Str) :
    splitFirst sentinel s = none ↔ hasSub sentinel s = false := by
  induction s with
  | nil => simp [splitFirst, hasSub, sentinel, List.isPrefixOf]
  | cons c cs ih =>
    rw [splitFirst, hasSub]
    by_cases hp : sentinel.isPrefixOf (c :: cs) = true
    · simp [hp]
    · simp only [Bool.not_eq_true] at hp
      cases hs : splitFirst sentinel cs with
      | none => simp [hp, hs, ih.mp hs]
      | some pq =>
        obtain ⟨p, q⟩ := pq
        have hsub : hasSub sentinel cs = true := by
          cases hc : hasSub sentinel cs with
          | true => rfl
          | false => rw [ih.mpr hc] at hs; exact absurd hs (by simp)
        simp [hp, hs, hsub]

theorem splitFirst_sent_noCross (s pre suf : Str) (h : splitFirst sentinel s = some (pre, suf)) :
    noCross pre.length s := by
  induction s generalizing pre suf with
  | nil => simp [splitFirst] at h
  | cons c cs ih =>
    rw [splitFirst] at h
    split at h
    case isTrue hp =>
      simp only [Option.some.injEq, Prod.mk.injEq] at h
      obtain ⟨h1, h2⟩ := h
      subst h1
      intro i hi
      exact absurd hi (Nat.not_lt_zero i)
    case isFalse hp =>
      cases hs : splitFirst sentinel cs with
      | none => rw [hs] at h; simp at h
      | some pq =>
        obtain ⟨pre', suf'⟩ := pq
        rw [hs] at h
        simp only [Option.some.injEq, Prod.mk.injEq] at h
        obtain ⟨h1, h2⟩ := h
        subst h1
        intro i hi
        cases i with
        | zero =>
          rw [List.drop_zero]
          exact Bool.eq_false_iff.mpr hp
        | succ j =>
          rw [List.drop_succ_cons]
          exact ih pre' suf' hs j (by simpa using hi)

theorem hasSub_sent_iff (l : Str) :
    hasSub sentinel l = true ↔ ∃ i, sentinel.isPrefixOf (l.drop i) = true := by
  induction l with
  | nil => simp [hasSub, sentinel, List.isPrefixOf]
  | cons c cs ih =>
    rw [hasSub]
    simp only [Bool.or_eq_true]
    constructor
    · rintro (hp | hsub)
      · exact ⟨0, by simpa using hp⟩
      · obtain ⟨i, hi⟩ := ih.mp hsub
        exact ⟨i + 1, by simpa [List.drop_succ_cons] using hi⟩
    · rintro ⟨i, hi⟩
      cases i with
      | zero => left; simpa using hi
      | succ j => right; exact ih.mpr ⟨j, by simpa [List.drop_succ_cons] using hi⟩

theorem hasSub_sent_of_drop (l : Str) (i : Nat)
    (h : sentinel.isPrefixOf (l.drop i) = true) : hasSub sentinel l = true :=
  (hasSub_sent_iff l).mpr ⟨i, h⟩

theorem sent_prefix_swap_suffix (m q q' : Str) (hm : m ≠ [])
    (hold : sentinel.isPrefixOf (m ++ sentinel ++ q) = false) :
    sentinel.isPrefixOf (m ++ q') = false := by
  cases hc : sentinel.isPrefixOf (m ++ q') with
  | false => rfl
  | true =>
    exfalso
    obtain ⟨t, ht⟩ := (sent_isPrefixOf_iff _).mp hc
    match m with
    | [] => exact hm rfl
    | [a] =>
      simp only [List.cons_append, List.nil_append, List.cons.injEq] at ht
      obtain ⟨ha, -⟩ := ht
      have : sentinel.isPrefixOf ([a] ++ sentinel ++ q) = true :=
        (sent_isPrefixOf_iff _).mpr ⟨'_' :: q, by simp [sentinel, ha]⟩
      rw [this] at hold
      exact absurd hold (by simp)
    | [a, b] =>
      simp only [List.cons_append, List.nil_append, List.cons.injEq] at ht
      obtain ⟨ha, hb, -⟩ := ht
      have : sentinel.isPrefixOf ([a, b] ++ sentinel ++ q) = true :=
        (sent_isPrefixOf_iff _).mpr ⟨'_' :: '_' :: q, by simp [sentinel, ha, hb]⟩
      rw [this] at hold
      exact absurd hold (by simp)
    | a :: b :: c :: m' =>
      simp only [List.cons_append, List.cons.injEq] at ht
      obtain ⟨ha, hb, hc2, -⟩ := ht
      have : sentinel.isPrefixOf ((a :: b :: c :: m') ++ sentinel ++ q) = true :=
        (sent_isPrefixOf_iff _).mpr ⟨m' ++ sentinel ++ q, by simp [ha, hb, hc2]⟩
      rw [this] at hold
      exact absurd hold (by simp)

theorem tame_no_inner_occurrence (r z : Str) (j : Nat)
    (htame : hasSub sentinel (r ++ ['_', '_']) = false) (hj : j < r.length) :
    sentinel.isPrefixOf (r.drop j ++ z) = false := by
  cases hc : sentinel.isPrefixOf (r.drop j ++ z) with
  | false => rfl
  | true =>
    exfalso
    obtain ⟨t, ht⟩ := (sent_isPrefixOf_iff _).mp hc
    have hne : r.drop j ≠ [] := by
      intro hnil
      have hl := List.length_drop j r
      rw [hnil] at hl
      simp at hl
      omega
    have hdrop : (r ++ ['_', '_']).drop j = r.drop j ++ ['_', '_'] :=
      List.drop_append_of_le_length (le_of_lt hj)
    have hocc : sentinel.isPrefixOf (r.drop j ++ ['_', '_']) = true := by
      apply (sent_isPrefixOf_iff _).mpr
      match hy : r.drop j with
      | [] => exact absurd hy hne
      | [a] =>
        rw [hy] at ht
        simp only [List.cons_append, List.nil_append, List.cons.injEq] at ht
        obtain ⟨ha, -⟩ := ht
        exact ⟨[], by simp [ha]⟩
      | [a, b] =>
        rw [hy] at ht
        simp only [List.cons_append, List.nil_append, List.cons.injEq] at ht
        obtain ⟨ha, hb, -⟩ := ht
        exact ⟨['_'], by simp [ha, hb]⟩
      | a :: b :: c :: y' =>
        rw [hy] at ht
        simp only [List.cons_append, List.cons.injEq] at ht
        obtain ⟨ha, hb, hc2, -⟩ := ht
        exact ⟨y' ++ ['_', '_'], by simp [ha, hb, hc2]⟩
    have := hasSub_sent_of_drop (r ++ ['_', '_']) j (by rw [hdrop]; exact hocc)
    rw [this] at htame
    exact absurd htame (by simp)

theorem splitFirst_sent_append (a : Str) :
    ∀ s : Str, noCross a.length (a ++ s) →
      splitFirst sentinel (a ++ s)
        = match splitFirst sentinel s with
          | none => none
          | some (pre, suf) => some (a ++ pre, suf) := by
  induction a with
  | nil =>
    intro s _
    simp only [List.nil_append]
    cases hs : splitFirst sentinel s with
    | none => rfl
    | some pq => obtain ⟨p, q⟩ := pq; simp
  | cons c a ih =>
    intro s hnc
    have h0 : sentinel.isPrefixOf (c :: (a ++ s)) = false := by
      have := hnc 0 (Nat.succ_pos _)
      simpa using this
    have hnc' : noCross a.length (a ++ s) := by
      intro i hi
      have := hnc (i + 1) (by simpa using Nat.succ_lt_succ hi)
      simpa [List.drop_succ_cons] using this
    rw [show (c :: a) ++ s = c :: (a ++ s) from rfl]
    rw [splitFirst, if_neg (by simp [h0]), ih s hnc']
    cases hs : splitFirst sentinel s with
    | none => rfl
    | some pq => obtain ⟨p, q⟩ := pq; simp

theorem noCross_replace (a p q r' : Str)
    (hnc : noCross a.length (a ++ (p ++ sentinel ++ q))) :
    noCross a.length (a ++ (p ++ r' ++ q)) := by
  intro i hi
  have hdrop2 : (a ++ (p ++ r' ++ q)).drop i = a.drop i ++ (p ++ r' ++ q) :=
    List.drop_append_of_le_length (le_of_lt hi)
  rw [hdrop2]
  have hold := hnc i hi
  rw [List.drop_append_of_le_length (le_of_lt hi)] at hold
  have hne : a.drop i ++ p ≠ [] := by
    intro hcontra
    have h1 := (List.append_eq_nil.mp hcontra).1
    have hl := List.length_drop i a
    rw [h1] at hl
    simp at hl
    omega
  have := sent_prefix_swap_suffix (a.drop i ++ p) q (r' ++ q) hne
    (by simpa [List.append_assoc] using hold)
  simpa [List.append_assoc] using this

theorem reinsert_of_no_sub (s : Str) (rs : List Str) (h : hasSub sentinel s = false) :
    reinsert s rs = s := by
  induction rs with
  | nil => rfl
  | cons r rs ih =>
    have hnone : splitFirst sentinel s = none := (splitFirst_sent_none_iff s).mpr h
    have h1 : reinsert s (r :: rs) = reinsert (replaceFirst s sentinel r) rs := rfl
    have h2 : replaceFirst s sentinel r = s := by rw [replaceFirst, hnone]
    rw [h1, h2]
    exact ih

theorem reinsert_append_noCross (rs : List Str) (a : Str) :
    ∀ s : Str, noCross a.length (a ++ s) → reinsert (a ++ s) rs = a ++ reinsert s rs := by
  induction rs with
  | nil => intro s _; rfl
  | cons r' rs' ih =>
    intro s hnc
    have h1 : reinsert (a ++ s) (r' :: rs')
        = reinsert (replaceFirst (a ++ s) sentinel r') rs' := rfl
    have h2 : reinsert s (r' :: rs') = reinsert (replaceFirst s sentinel r') rs' := rfl
    rw [h1, h2]
    cases hs : splitFirst sentinel s with
    | none =>
      have hrep1 : replaceFirst (a ++ s) sentinel r' = a ++ s := by
        rw [replaceFirst, splitFirst_sent_append a s hnc, hs]
      have hrep2 : replaceFirst s sentinel r' = s := by rw [replaceFirst, hs]
      rw [hrep1, hrep2]
      exact ih s hnc
    | some pq =>
      obtain ⟨p, q⟩ := pq
      have hrep1 : replaceFirst (a ++ s) sentinel r' = a ++ (p ++ r' ++ q) := by
        rw [replaceFirst, splitFirst_sent_append a s hnc, hs]
        simp [List.append_assoc]
      have hrep2 : replaceFirst s sentinel r' = p ++ r' ++ q := by
        rw [replaceFirst, hs]
      rw [hrep1, hrep2]
      have hseq : s = p ++ sentinel ++ q := splitFirst_eq_append sentinel s p q hs
      have hnc' : noCross a.length (a ++ (p ++ r' ++ q)) := by
        apply noCross_replace
        rw [← hseq]
        exact hnc
      exact ih (p ++ r' ++ q) hnc'

theorem reinsert_eq_spec (rs : List Str) :
    (∀ r ∈ rs, tame r = true) → ∀ s : Str, reinsert s rs = reinsertSpec s rs := by
  induction rs with
  | nil => intro _ s; rfl
  | cons r rs' ih =>
    intro htame s
    have htr : tame r = true := htame r (List.mem_cons_self r rs')
    have htame' : ∀ x ∈ rs', tame x = true := fun x hx => htame x (List.mem_cons_of_mem r hx)
    have h1 : reinsert s (r :: rs') = reinsert (replaceFirst s sentinel r) rs' := rfl
    rw [h1]
    cases hs : splitFirst sentinel s with
    | none =>
      have hno : hasSub sentinel s = false := (splitFirst_sent_none_iff s).mp hs
      have hrep : replaceFirst s sentinel r = s := by rw [replaceFirst, hs]
      rw [hrep, reinsert_of_no_sub s rs' hno]
      rw [reinsertSpec, hs]
    | some pq =>
      obtain ⟨pre, suf⟩ := pq
      have hseq : s = pre ++ sentinel ++ suf := splitFirst_eq_append sentinel s pre suf hs
      have hrep : replaceFirst s sentinel r = (pre ++ r) ++ suf := by
        rw [replaceFirst, hs]
      rw [hrep]
      have hnc0 : noCross pre.length s := splitFirst_sent_noCross s pre suf hs
      have hnc : noCross (pre ++ r).length ((pre ++ r) ++ suf) := by
        intro i hi
        rw [List.length_append] at hi
        by_cases hip : i < pre.length
        · have hold := hnc0 i hip
          rw [hseq, List.append_assoc,
            List.drop_append_of_le_length (le_of_lt hip)] at hold
          have hne : pre.drop i ≠ [] := by
            intro hcontra
            have hl := List.length_drop i pre
            rw [hcontra] at hl
            simp at hl
            omega
          have := sent_prefix_swap_suffix (pre.drop i) suf (r ++ suf) hne
            (by simpa [List.append_assoc] using hold)
          rw [List.append_assoc, List.drop_append_of_le_length (le_of_lt hip)]
          simpa [List.append_assoc] using this
        · have hple : pre.length ≤ i := Nat.le_of_not_lt hip
          obtain ⟨j, rfl⟩ : ∃ j, i = pre.length + j := ⟨i - pre.length, by omega⟩
          have hj : j < r.length := by omega
          have hdrop : ((pre ++ r) ++ suf).drop (pre.length + j) = r.drop j ++ suf := by
            rw [List.append_assoc, ← List.drop_drop, List.drop_left,
              List.drop_append_of_le_length (le_of_lt hj)]
          rw [hdrop]
          exact tame_no_inner_occurrence r suf j (by simpa [tame] using htr) hj
      calc reinsert ((pre ++ r) ++ suf) rs'
          = (pre ++ r) ++ reinsert suf rs' := reinsert_append_noCross rs' (pre ++ r) suf hnc
        _ = (pre ++ r) ++ reinsertSpec suf rs' := by rw [ih htame' suf]
        _ = reinsertSpec s (r :: rs') := by rw [reinsertSpec, hs]

/-! ## Ordered-containment lemmas -/

theorem containsInOrder_build (pre r suf : Str) (rs : List Str)
    (h : containsInOrder suf rs = true) :
    containsInOrder ((pre ++ r) ++ suf) (r :: rs) = true := by
  rw [containsInOrder, List.any_eq_true]
  refine ⟨pre.length, ?_, ?_⟩
  · simp only [List.mem_range, List.length_append]
    omega
  · rw [Bool.and_eq_true]
    constructor
    · have hd : ((pre ++ r) ++ suf).drop pre.length = r ++ suf := by
        rw [List.append_assoc]
        exact List.drop_left pre (r ++ suf)
      rw [hd]
      exact isPrefixOf_append_self r suf
    · have hd : ((pre ++ r) ++ suf).drop (pre.length + r.length) = suf := by
        rw [← List.length_append pre r]
        exact List.drop_left (pre ++ r) suf
      rw [hd]
      exact h

theorem containsInOrder_of_drop (l : Str) (k : Nat) (rs : List Str) (hk : k ≤ l.length)
    (h : containsInOrder (l.drop k) rs = true) : containsInOrder l rs = true := by
  cases rs with
  | nil => rfl
  | cons r rs' =>
    rw [containsInOrder, List.any_eq_true] at h ⊢
    obtain ⟨i, hmem, hcond⟩ := h
    rw [Bool.and_eq_true] at hcond
    obtain ⟨hpre, hrest⟩ := hcond
    refine ⟨k + i, ?_, ?_⟩
    · rw [List.mem_range] at hmem ⊢
      have := List.length_drop k l
      omega
    · rw [Bool.and_eq_true]
      constructor
      · rw [show l.drop (k + i) = (l.drop k).drop i from (List.drop_drop i k l).symm]
        exact hpre
      · have he : l.drop (k + i + r.length) = (l.drop k).drop (i + r.length) := by
          rw [List.drop_drop, Nat.add_assoc]
        rw [he]
        exact hrest

theorem containsInOrder_prepend (u t : Str) (rs : List Str)
    (h : containsInOrder t rs = true) : containsInOrder (u ++ t) rs = true := by
  apply containsInOrder_of_drop (u ++ t) u.length rs
  · simp [List.length_append]
  · rw [List.drop_left]
    exact h

theorem reinsertSpec_contains (rs : List Str) :
    ∀ s : Str, containsInOrder s (List.replicate rs.length sentinel) = true →
      containsInOrder (reinsertSpec s rs) rs = true := by
  induction rs with
  | nil => intro s _; rfl
  | cons r rs' ih =>
    intro s h
    rw [List.length_cons, List.replicate_succ, containsInOrder, List.any_eq_true] at h
    obtain ⟨i, hmem, hcond⟩ := h
    rw [Bool.and_eq_true] at hcond
    obtain ⟨hpre, hrest⟩ := hcond
    have hsub : hasSub sentinel s = true := hasSub_sent_of_drop s i hpre
    cases hs : splitFirst sentinel s with
    | none =>
      rw [(splitFirst_sent_none_iff s).mp hs] at hsub
      exact absurd hsub (by simp)
    | some pq =>
      obtain ⟨pre, suf⟩ := pq
      have hseq : s = pre ++ sentinel ++ suf := splitFirst_eq_append sentinel s pre suf hs
      have hmin : pre.length ≤ i := by
        by_contra hlt
        push_neg at hlt
        have hz := splitFirst_sent_noCross s pre suf hs i hlt
        rw [hz] at hpre
        exact absurd hpre (by simp)
      have hsuf : suf = s.drop (pre.length + sentinel.length) := by
        rw [hseq, show pre.length + sentinel.length = (pre ++ sentinel).length from
          (List.length_append pre sentinel).symm]
        rw [show pre ++ sentinel ++ suf = (pre ++ sentinel) ++ suf from rfl, List.drop_left]
      obtain ⟨t3, ht3⟩ := (sent_isPrefixOf_iff _).mp hpre
      have hlen3 : i + 3 ≤ s.length := by
        have h1 : (s.drop i).length = t3.length + 3 := by rw [ht3]; simp
        have h2 := List.length_drop i s
        omega
      have hslen : s.length = pre.length + 3 + suf.length := by
        rw [hseq]
        simp [List.length_append, sentinel]
        omega
      have htrans : s.drop (i + sentinel.length) = suf.drop (i - pre.length) := by
        rw [hsuf, List.drop_drop]
        congr 1
        simp [sentinel]
        omega
      rw [htrans] at hrest
      have hk : i - pre.length ≤ suf.length := by omega
      have hsufc : containsInOrder suf (List.replicate rs'.length sentinel) = true :=
        containsInOrder_of_drop suf (i - pre.length) _ hk hrest
      have hx := ih suf hsufc
      have hspec : reinsertSpec s (r :: rs') = (pre ++ r) ++ reinsertSpec suf rs' := by
        rw [reinsertSpec, hs]
      rw [hspec]
      exact containsInOrder_build pre r (reinsertSpec suf rs') rs' hx

theorem strip_contains_sentinels (p : Pattern) :
    containsInOrder (strip_pattern p) (List.replicate (placeables_of p).length sentinel) = true := by
  induction p with
  | nil => rfl
  | cons el p ih =>
    cases el with
    | textElement s =>
      rw [show strip_pattern (PatternElement.textElement s :: p) = s ++ strip_pattern p from rfl]
      rw [show placeables_of (PatternElement.textElement s :: p) = placeables_of p from rfl]
      exact containsInOrder_prepend s _ _ ih
    | placeable e =>
      rw [show strip_pattern (PatternElement.placeable e :: p)
          = sentinel ++ strip_pattern p from rfl]
      rw [show placeables_of (PatternElement.placeable e :: p)
          = write_expression e :: placeables_of p from rfl]
      rw [List.length_cons, List.replicate_succ]
      have hb := containsInOrder_build [] sentinel (strip_pattern p)
        (List.replicate (placeables_of p).length sentinel) ih
      simpa using hb

/-! ## Tameness of the brace-wrapped renderings -/

theorem sent_prefix_brace_pad (x : Str) :
    sentinel.isPrefixOf (x ++ [' ', '}'] ++ ['_', '_'])
      = sentinel.isPrefixOf (x ++ [' ', '}']) := by
  have hsp : ('_' == ' ') = false := by decide
  match x with
  | [] => decide
  | [a] => simp [sentinel, List.isPrefixOf, hsp]
  | [a, b] => simp [sentinel, List.isPrefixOf, hsp]
  | a :: b :: c :: x' => simp [sentinel, List.isPrefixOf, List.cons_append]

theorem hasSub_brace_pad (x : Str) :
    hasSub sentinel (x ++ [' ', '}'] ++ ['_', '_'])
      = hasSub sentinel (x ++ [' ', '}']) := by
  induction x with
  | nil => decide
  | cons c x ih =>
    rw [show (c :: x) ++ [' ', '}'] ++ ['_', '_']
        = c :: (x ++ [' ', '}'] ++ ['_', '_']) from by simp]
    rw [show (c :: x) ++ [' ', '}'] = c :: (x ++ [' ', '}']) from by simp]
    rw [hasSub, hasSub, ih]
    have hp := sent_prefix_brace_pad (c :: x)
    rw [show (c :: x) ++ [' ', '}'] ++ ['_', '_']
        = c :: (x ++ [' ', '}'] ++ ['_', '_']) from by simp] at hp
    rw [show (c :: x) ++ [' ', '}'] = c :: (x ++ [' ', '}']) from by simp] at hp
    rw [hp]

theorem tame_wrapBraces (v : Str) (h : hasSub sentinel (wrapBraces v) = false) :
    tame (wrapBraces v) = true := by
  have hsplit : wrapBraces v ++ ['_', '_'] = ('{' :: ' ' :: v) ++ [' ', '}'] ++ ['_', '_'] := by
    simp [wrapBraces]
  have hback : ('{' :: ' ' :: v) ++ [' ', '}'] = wrapBraces v := by
    simp [wrapBraces]
  have key : hasSub sentinel (wrapBraces v ++ ['_', '_']) = false := by
    rw [hsplit, hasSub_brace_pad, hback]
    exact h
  rw [tame, key]
  rfl

theorem tame_of_write_expression (e : Expression)
    (h : hasSub sentinel (write_expression e) = false) : tame (write_expression e) = true := by
  cases e with
  | select raw =>
    rw [show write_expression (Expression.select raw) = sentinel from rfl] at h
    exact absurd h (by decide)
  | inline ie =>
    cases ie with
    | stringLiteral v => exact tame_wrapBraces v h
    | numberLiteral v => exact tame_wrapBraces v h
    | functionReference raw =>
      rw [show write_expression (Expression.inline (InlineExpression.functionReference raw))
          = sentinel from rfl] at h
      exact absurd h (by decide)
    | messageReference id attr => exact tame_wrapBraces id h
    | termReference id attr args => exact tame_wrapBraces ('-' :: id) h
    | variableReference id => exact tame_wrapBraces ('$' :: id) h
    | placeable raw =>
      rw [show write_expression (Expression.inline (InlineExpression.placeable raw))
          = sentinel from rfl] at h
      exact absurd h (by decide)

/-! ## Claim C2 -/

/-- Claim C2 counterexample: for the pattern made of an opaque select
placeable followed by a variable placeable, stripping and reinserting with
the identity service yields the string with the variable rendering before
the opaque rendering, so the result does not contain the two original
placeholder renderings in their original left-to-right order. -/
theorem thm_C2_roundtrip_counterexample :
    reinsert (strip_pattern pC2) (placeables_of pC2) = ("{ $x }___").toList
      ∧ containsInOrder (reinsert (strip_pattern pC2) (placeables_of pC2)) (placeables_of pC2)
          = false := by
  decide

/-- Claim C2 amended: for any pattern none of whose placeholder renderings
contains the sentinel token, reinserting the renderings into the stripped
text yields a string containing the original renderings in their original
left-to-right order. -/
theorem thm_C2_roundtrip_amended (p : Pattern)
    (h : ∀ r ∈ placeables_of p, hasSub sentinel r = false) :
    containsInOrder (reinsert (strip_pattern p) (placeables_of p)) (placeables_of p) = true := by
  have htame : ∀ r ∈ placeables_of p, tame r = true := by
    intro r hr
    obtain ⟨el, hel, heq⟩ := List.mem_filterMap.mp hr
    cases el with
    | textElement s => simp at heq
    | placeable e =>
      simp only [Option.some.injEq] at heq
      subst heq
      exact tame_of_write_expression e (h _ hr)
  rw [reinsert_eq_spec (placeables_of p) htame (strip_pattern p)]
  exact reinsertSpec_contains (placeables_of p) (strip_pattern p) (strip_contains_sentinels p)

/-- Witness for the amended claim C2 at a concrete ordinary pattern. -/
theorem thm_C2_roundtrip_witness :
    containsInOrder (reinsert (strip_pattern pC2w) (placeables_of pC2w)) (placeables_of pC2w)
      = true :=
  thm_C2_roundtrip_amended pC2w (by decide)

/-! ## Claim C6 -/

/-- Claim C6 counterexample: with one sentinel occurrence and two
placeholders, the code replaces twice (the first placeholder is itself the
sentinel), so the excess placeholder is inserted after all, while the
claimed one-occurrence-per-placeholder process stops and drops it. -/
theorem thm_C6_reinsert_counterexample :
    reinsert sentinel [sentinel, [('B' : Char)]] = [('B' : Char)]
      ∧ reinsertSpec sentinel [sentinel, [('B' : Char)]] = sentinel
      ∧ reinsert sentinel [sentinel, [('B' : Char)]]
          ≠ reinsertSpec sentinel [sentinel, [('B' : Char)]] := by
  decide

/-- Claim C6 amended: for every translated string and placeholder list in
which no placeholder contains the sentinel or ends in an underscore,
reinsertion equals the spec process: the sentinel is replaced left to
right, one occurrence per placeholder, in order; with fewer occurrences
than placeholders the excess placeholders are not reinserted; with more,
surplus sentinels are left verbatim. -/
theorem thm_C6_reinsert_amended (s : Str) (ps : List Str)
    (h : ∀ r ∈ ps, tame r = true) : reinsert s ps = reinsertSpec s ps :=
  reinsert_eq_spec ps h s

/-- Witness for the amended claim C6 at a concrete input. -/
theorem thm_C6_reinsert_witness :
    reinsert (("a___b___c").toList) [("{ $x }").toList]
      = reinsertSpec (("a___b___c").toList) [("{ $x }").toList] :=
  thm_C6_reinsert_amended (("a___b___c").toList) [("{ $x }").toList] (by decide)

/-! ## Lookup and passthrough lemmas -/

theorem lookup_eq_none (id : Str) (l : List (Str × Option Str))
    (h : ∀ pr ∈ l, pr.1 ≠ id) : List.lookup id l = none := by
  induction l with
  | nil => rfl
  | cons pr l ih =>
    obtain ⟨k, v⟩ := pr
    have hne : k ≠ id := by simpa using h (k, v) (List.mem_cons_self _ _)
    have hk : (id == k) = false := by
      rw [beq_eq_false_iff_ne]
      exact fun hcontra => hne hcontra.symm
    rw [List.lookup, hk]
    exact ih fun pr hpr => h pr (List.mem_cons_of_mem _ hpr)

theorem lookup_mem (id : Str) (v : Option Str) (l : List (Str × Option Str))
    (h : List.lookup id l = some v) : (id, v) ∈ l := by
  induction l with
  | nil => simp [List.lookup] at h
  | cons pr l ih =>
    obtain ⟨k, b⟩ := pr
    rw [List.lookup] at h
    cases hk : (id == k) with
    | true =>
      rw [hk] at h
      simp only [Option.some.injEq] at h
      subst h
      have hid : id = k := beq_iff_eq.mp hk
      subst hid
      exact List.mem_cons_self _ _
    | false =>
      rw [hk] at h
      exact List.mem_cons_of_mem _ (ih h)

theorem needs_translation_of_hand_tag (msg : Message) (source_outdated target_existing : Resource)
    (existing : Message) (content : List Str)
    (hfind : find_message target_existing msg.id = some existing)
    (hcomment : existing.comment = some (Comment.comment content))
    (htag : contains_tag content hand_tag = true) :
    needs_translation msg source_outdated target_existing = false := by
  simp [needs_translation, hfind, hcomment, htag]

theorem lookup_none_of_hand_translated (svc : Svc)
    (source source_outdated target_existing : Resource)
    (id : Str) (existing : Message) (content : List Str)
    (hfind : find_message target_existing id = some existing)
    (hcomment : existing.comment = some (Comment.comment content))
    (htag : contains_tag content hand_tag = true) :
    translations_lookup
        (run_translations svc (pending_translations svc source source_outdated target_existing)) id
      = none := by
  apply lookup_eq_none
  intro pr hpr
  rw [List.mem_reverse] at hpr
  obtain ⟨pr0, hpr0, hmap⟩ := List.mem_map.mp hpr
  obtain ⟨k, v⟩ := pr0
  have hkey : pr.1 = k := by
    cases v with
    | some value => rw [← hmap]
    | none => rw [← hmap]
  rw [hkey]
  obtain ⟨entry, hentry, hf⟩ := List.mem_filterMap.mp hpr0
  cases entry with
  | term t => simp at hf
  | comment c => simp at hf
  | message msg =>
    have hf' : (if needs_translation msg source_outdated target_existing then
        some (msg.id,
          if is_lang_name msg then some (lang_name_value svc)
          else
            match msg.value with
            | some pattern => some (strip_pattern pattern)
            | none => none)
      else none) = some (k, v) := hf
    by_cases hneed : needs_translation msg source_outdated target_existing = true
    · rw [if_pos hneed] at hf'
      simp only [Option.some.injEq, Prod.mk.injEq] at hf'
      obtain ⟨hmsgid, -⟩ := hf'
      intro hcontra
      have hmid : msg.id = id := by rw [hmsgid, hcontra]
      have hfalse := needs_translation_of_hand_tag msg source_outdated target_existing
        existing content (by rw [hmid]; exact hfind) hcomment htag
      exact absurd (hneed.symm.trans hfalse) (by simp)
    · rw [if_neg hneed] at hf'
      simp at hf'

theorem write_expression_eq_surface (e : Expression) (h : lossyExpr e = false) :
    write_expression e = expression_surface e := by
  cases e with
  | select raw => simp [lossyExpr] at h
  | inline ie =>
    cases ie with
    | stringLiteral v => simp [lossyExpr] at h
    | numberLiteral v => rfl
    | functionReference raw => simp [lossyExpr] at h
    | messageReference id attr =>
      cases attr with
      | none => simp [write_expression, expression_surface, attr_suffix]
      | some a => simp [lossyExpr] at h
    | termReference id attr args =>
      cases attr with
      | some a => simp [lossyExpr] at h
      | none =>
        cases args with
        | some raw => simp [lossyExpr] at h
        | none => simp [write_expression, expression_surface, attr_suffix, args_suffix]
    | variableReference id => rfl
    | placeable raw => simp [lossyExpr] at h

theorem write_pattern_eq_surface (p : Pattern) (h : noLossPattern p = true) :
    write_pattern p = pattern_surface p := by
  induction p with
  | nil => rfl
  | cons el p ih =>
    simp only [noLossPattern, List.all_cons, Bool.and_eq_true] at h
    obtain ⟨h1, h2⟩ := h
    cases el with
    | textElement s =>
      rw [show write_pattern (PatternElement.textElement s :: p)
            = s ++ write_pattern p from rfl,
          show pattern_surface (PatternElement.textElement s :: p)
            = s ++ pattern_surface p from rfl,
          ih h2]
    | placeable e =>
      simp only [Bool.not_eq_true'] at h1
      rw [show write_pattern (PatternElement.placeable e :: p)
            = write_expression e ++ write_pattern p from rfl,
          show pattern_surface (PatternElement.placeable e :: p)
            = expression_surface e ++ pattern_surface p from rfl,
          ih h2, write_expression_eq_surface e h1]

/-! ## Claim C3 -/

/-- Claim C3 counterexample: a hand-translated target entry whose value is a
select expression is not written verbatim: the writer renders its value as
the bare sentinel, losing the select content, even though the comment is
kept and the source text is ignored.  The last two conjuncts show the other
loss kinds for values of hand-translated entries: a string literal loses
its quotes and a message reference loses its attribute accessor. -/
theorem thm_C3_hand_translation_counterexample :
    write_message_chunk trsC3 targetC3 msgC3
        ≠ write_comment existingC3.comment ++ (msgC3.id ++ (" = ").toList)
            ++ pattern_surface valSelect ++ ['\n', '\n']
      ∧ write_message_chunk trsC3 targetC3 msgC3
          = write_comment existingC3.comment ++ (msgC3.id ++ (" = ").toList)
              ++ sentinel ++ ['\n', '\n']
      ∧ write_pattern valQuote ≠ pattern_surface valQuote
      ∧ write_pattern valAttr ≠ pattern_surface valAttr := by
  decide

/-- Facts about the loss kinds at those inputs: the written and verbatim
renderings at the counterexample patterns. -/
theorem write_pattern_loss_kinds :
    write_pattern valQuote = ("{ x }").toList
      ∧ pattern_surface valQuote = ['{', ' ', '"', 'x', '"', ' ', '}']
      ∧ write_pattern valAttr = ("{ m }").toList
      ∧ pattern_surface valAttr = ("{ m.a }").toList
      ∧ write_pattern valSelect = sentinel := by
  decide

/-- Claim C3 amended: for every message whose existing target entry carries
a standalone comment containing the hand-translated tag, the writer emits
the existing entry comment and the existing entry value re-rendered through
write_pattern, independent of the source message value, the prior snapshot
and the translation service; that rendering is the value verbatim exactly
when every placeable of the value is loss-free, that is a number literal, a
variable reference, an attribute-free message reference or an
attribute-and-argument-free term reference (string literals lose their
quotes, references lose attribute and argument fields, and function, select
and nested placeables collapse to the sentinel). -/
theorem thm_C3_hand_translation_amended (svc : Svc)
    (source source_outdated target_existing : Resource) (m existing : Message)
    (content : List Str)
    (hfind : find_message target_existing m.id = some existing)
    (hcomment : existing.comment = some (Comment.comment content))
    (htag : contains_tag content hand_tag = true) :
    write_message_chunk
        (run_translations svc (pending_translations svc source source_outdated target_existing))
        target_existing m
      = write_comment existing.comment ++ (m.id ++ (" = ").toList)
          ++ write_value_opt existing.value ++ ['\n', '\n']
      ∧ (∀ v, existing.value = some v → noLossPattern v = true →
          write_pattern v = pattern_surface v) := by
  constructor
  · have hnone := lookup_none_of_hand_translated svc source source_outdated target_existing
      m.id existing content hfind hcomment htag
    unfold write_message_chunk
    rw [hnone, hfind]
  · intro v _ hnl
    exact write_pattern_eq_surface v hnl

/-- Witness for the amended claim C3 at a concrete hand-translated entry. -/
theorem thm_C3_hand_translation_witness :
    write_message_chunk
        (run_translations svcFail (pending_translations svcFail sourceW3 emptyResource targetW3))
        targetW3 msgW3
      = write_comment existW3.comment ++ (msgW3.id ++ (" = ").toList)
          ++ write_value_opt existW3.value ++ ['\n', '\n']
    ∧ write_pattern [PatternElement.textElement (("Bonjour").toList)]
        = pattern_surface [PatternElement.textElement (("Bonjour").toList)] :=
  ⟨(thm_C3_hand_translation_amended svcFail sourceW3 emptyResource targetW3 msgW3 existW3
      [hand_tag] (by decide) (by decide) (by decide)).1,
   (thm_C3_hand_translation_amended svcFail sourceW3 emptyResource targetW3 msgW3 existW3
      [hand_tag] (by decide) (by decide) (by decide)).2
     [PatternElement.textElement (("Bonjour").toList)] (by decide) (by decide)⟩

/-! ## Claim C8 -/

/-- Claim C8 counterexample: a term whose value is a select expression is
not passed through verbatim: the writer renders the value as the bare
sentinel, losing the select content.  The last two conjuncts show that term
patterns holding a string literal or an attributed reference are also not
byte-for-byte preserved: the quotes and the attribute accessor are
dropped. -/
theorem thm_C8_term_counterexample :
    write_term_chunk termC8
        ≠ write_comment termC8.comment ++ ('-' :: termC8.id) ++ (" = ").toList
            ++ pattern_surface termC8.value ++ ['\n', '\n']
      ∧ write_term_chunk termC8
          = write_comment termC8.comment ++ ('-' :: termC8.id) ++ (" = ").toList
              ++ sentinel ++ ['\n', '\n']
      ∧ write_term_chunk ⟨("q").toList, valQuote, none⟩
          ≠ write_comment none ++ ('-' :: ("q").toList) ++ (" = ").toList
              ++ pattern_surface valQuote ++ ['\n', '\n']
      ∧ write_term_chunk ⟨("q").toList, valAttr, none⟩
          ≠ write_comment none ++ ('-' :: ("q").toList) ++ (" = ").toList
              ++ pattern_surface valAttr ++ ['\n', '\n'] := by
  decide

/-- Claim C8 amended: for every term whose value pattern holds only
loss-free placeables - number literals, variable references, attribute-free
message references and attribute-and-argument-free term references - the
writer emits the term comment followed by its pattern verbatim, unchanged
by the translation state; string literals lose their quotes, references
lose attribute and argument fields, and function, select and nested
placeables collapse to the sentinel. -/
theorem thm_C8_term_passthrough_amended (t : Term) (trs : List (Str × Option Str))
    (target_existing : Resource) (h : noLossPattern t.value = true) :
    write_entry_chunk trs target_existing (Entry.term t)
      = write_comment t.comment ++ ('-' :: t.id) ++ (" = ").toList
          ++ pattern_surface t.value ++ ['\n', '\n'] := by
  show write_term_chunk t = _
  rw [write_term_chunk, write_pattern_eq_surface t.value h]

/-- Witness for the amended claim C8 at a concrete term. -/
theorem thm_C8_term_passthrough_witness :
    write_entry_chunk [] emptyResource (Entry.term termC8w)
      = write_comment termC8w.comment ++ ('-' :: termC8w.id) ++ (" = ").toList
          ++ pattern_surface termC8w.value ++ ['\n', '\n'] :=
  thm_C8_term_passthrough_amended termC8w [] emptyResource (by decide)

/-! ## Claim C9 -/

theorem pending_values_isSome (svc : Svc) (source source_outdated target_existing : Resource)
    (hval : ∀ m : Message, Entry.message m ∈ source.body →
      needs_translation m source_outdated target_existing = true →
      is_lang_name m = false → m.value.isSome = true) :
    ∀ pr ∈ pending_translations svc source source_outdated target_existing,
      pr.2.isSome = true := by
  intro pr hpr
  obtain ⟨entry, hentry, hf⟩ := List.mem_filterMap.mp hpr
  cases entry with
  | term t => simp at hf
  | comment c => simp at hf
  | message msg =>
    have hf' : (if needs_translation msg source_outdated target_existing then
        some (msg.id,
          if is_lang_name msg then some (lang_name_value svc)
          else
            match msg.value with
            | some pattern => some (strip_pattern pattern)
            | none => none)
      else none) = some pr := hf
    by_cases hneed : needs_translation msg source_outdated target_existing = true
    · rw [if_pos hneed] at hf'
      simp only [Option.some.injEq] at hf'
      subst hf'
      cases hl : is_lang_name msg with
      | true => simp [hl]
      | false =>
        have hv := hval msg hentry hneed hl
        cases hmv : msg.value with
        | some pattern => simp [hl, hmv]
        | none => rw [hmv] at hv; simp at hv
    · rw [if_neg hneed] at hf'
      simp at hf'

theorem run_values_isSome (svc : Svc) (pend : List (Str × Option Str))
    (h : ∀ pr ∈ pend, pr.2.isSome = true) :
    ∀ pr ∈ run_translations svc pend, pr.2.isSome = true := by
  intro pr hpr
  obtain ⟨pr0, hpr0, hmap⟩ := List.mem_map.mp hpr
  obtain ⟨k, v⟩ := pr0
  cases v with
  | some value => rw [← hmap]; rfl
  | none =>
    have := h (k, none) hpr0
    simp at this

theorem lookup_result_isSome (trs : List (Str × Option Str))
    (hsome : ∀ pr ∈ trs, pr.2.isSome = true) (id : Str) (r : Option Str)
    (h : translations_lookup trs id = some r) : r.isSome = true := by
  have hm := lookup_mem id r trs.reverse h
  rw [List.mem_reverse] at hm
  exact hsome (id, r) hm

theorem filterMap_ids_eq (trs : List (Str × Option Str))
    (hsome : ∀ pr ∈ trs, pr.2.isSome = true) (body : List Entry) :
    body.filterMap (entry_written_id trs) = body.filterMap source_entry_id := by
  induction body with
  | nil => rfl
  | cons entry body ih =>
    rw [List.filterMap_cons, List.filterMap_cons]
    cases entry with
    | term t => simp [entry_written_id, source_entry_id, ih]
    | comment c => simp [entry_written_id, source_entry_id, ih]
    | message m =>
      cases hl : translations_lookup trs m.id with
      | none => simp [entry_written_id, source_entry_id, hl, ih]
      | some r =>
        have hr := lookup_result_isSome trs hsome m.id r hl
        cases r with
        | some x => simp [entry_written_id, source_entry_id, hl, ih]
        | none => simp at hr

/-- Claim C9 counterexample: a message without a value pattern that needs
translation gets result None and its id is omitted from the output, so the
output id sequence is not the source id sequence. -/
theorem thm_C9_order_counterexample :
    output_ids sourceNoValue trsNoValue = []
      ∧ source_ids sourceNoValue = [("only-attrs").toList]
      ∧ output_ids sourceNoValue trsNoValue ≠ source_ids sourceNoValue := by
  decide

/-- Claim C9 amended: when every message of the source that needs
translation and is not a language-name message has a value pattern, the
sequence of entry ids written to the output equals the sequence of entry
ids of the current source resource, in order, with no re-sorting,
deduplication, insertion or omission. -/
theorem thm_C9_order_amended (svc : Svc) (source source_outdated target_existing : Resource)
    (hval : ∀ m : Message, Entry.message m ∈ source.body →
      needs_translation m source_outdated target_existing = true →
      is_lang_name m = false → m.value.isSome = true) :
    output_ids source
        (run_translations svc (pending_translations svc source source_outdated target_existing))
      = source_ids source := by
  have hsome := run_values_isSome svc _
    (pending_values_isSome svc source source_outdated target_existing hval)
  unfold output_ids source_ids
  exact filterMap_ids_eq _ hsome source.body

/-- Witness for the amended claim C9 at a concrete source. -/
theorem thm_C9_order_witness :
    output_ids sourceWithValue trsWithValue = source_ids sourceWithValue :=
  thm_C9_order_amended svcFail sourceWithValue emptyResource emptyResource (by
    intro m hm hneed hlang
    simp only [sourceWithValue, List.mem_singleton, Entry.message.injEq] at hm
    subst hm
    rfl)

end TT
